import Mathlib

/-!
Verification of the scrapper repository's domain-processing pipeline.

Shallow embedding of the JavaScript sources:
  - `src/src/extract/scoreRelevance.js` (three concatenated modules:
    the relevance scorer, the email extraction/merge/ranking module,
    and the streaming extraction scheduler),
  - `src/src/extract/crawlDomain.js` (the `fetchWithRetry` loop),
  - `src/src/extract/openRouterExtract.js` (the LLM-output sanitizer).

Strings are modelled through their character lists (`String.data`); the
JavaScript string operations used by the code (`split` with a one-character
separator, `toLowerCase`, `trim`, `startsWith`, `endsWith`, `includes`) are
translated to structurally recursive functions on `List Char` so that every
definition evaluates by kernel reduction.  Network calls, the HTML parser
(cheerio) and the regex scanner are collaborators outside the embedding:
their outputs (attempt outcomes, candidate address strings, parsed LLM
entries) are parameters of the embedded functions, exactly at the boundary
where the JavaScript code consumes them.
-/

/-! ### Character and list utilities -/

/-- ASCII letter, as matched by the JavaScript character class `[a-z]` with
the `i` flag. -/
def isAsciiAlpha (c : Char) : Bool :=
  ('a' ≤ c && c ≤ 'z') || ('A' ≤ c && c ≤ 'Z')

/-- Hexadecimal digit, as matched by `[0-9a-f]` with the `i` flag. -/
def isHexDigitCh (c : Char) : Bool :=
  c.isDigit || ('a' ≤ c && c ≤ 'f') || ('A' ≤ c && c ≤ 'F')

/-- Whitespace trimmed by `String.prototype.trim` (restricted to the ASCII
whitespace the embedding models). -/
def isWsChar (c : Char) : Bool := c.isWhitespace

/-- Drop leading and trailing whitespace, modelling `trim()`. -/
def trimChars (l : List Char) : List Char :=
  (((l.dropWhile isWsChar).reverse.dropWhile isWsChar)).reverse

/-- Lower-case a character list, modelling `toLowerCase()` on the ASCII
fragment the pipeline manipulates. -/
def lowerChars (l : List Char) : List Char := l.map Char.toLower

/-- Lower-case a string. -/
def lowerStr (s : String) : String := String.mk (lowerChars s.data)

/-- Does `t` occur as a contiguous run inside `s`?  Models
`String.prototype.includes` on character lists. -/
def containsList (s t : List Char) : Bool :=
  match s with
  | [] => t.isEmpty
  | _ :: rest => t.isPrefixOf s || containsList rest t

/-- Models `s.includes(t)` on the underlying character lists. -/
def includesStr (s t : String) : Bool := containsList s.data t.data

/-- Models `split(sep)` for a one-character separator, as used by the code for
`'@'` and `'.'`.  Like the JavaScript original it never returns an empty
list and keeps empty segments. -/
def splitOnChar (sep : Char) : List Char → List (List Char)
  | [] => [[]]
  | c :: rest =>
    let r := splitOnChar sep rest
    if c = sep then [] :: r
    else (c :: r.headD []) :: r.tail

/-- The function `normalizeEmail` (extractEmails module):
`String(email).toLowerCase().trim()`. -/
def normalizeEmail (email : String) : String :=
  String.mk (trimChars (lowerChars email.data))

/-! ### Email validation (extractEmails module) -/

/-- Prefixes useful for B2B outreach (`GENERIC_PREFIXES`). -/
def GENERIC_PREFIXES : List String :=
  ["info", "contact", "sales", "office", "hello", "support",
   "enquiry", "enquiries", "bookings", "booking", "reservations", "reservation"]

/-- Prefixes that are never useful for outreach (`JUNK_PREFIXES`). -/
def JUNK_PREFIXES : List String :=
  ["privacy", "dpo", "compliance", "legal", "abuse",
   "noreply", "no-reply", "do-not-reply", "donotreply",
   "postmaster", "mailer-daemon", "webmaster", "hostmaster", "root", "admin"]

/-- Domains that are never agency websites (`JUNK_DOMAINS`). -/
def JUNK_DOMAINS : List String :=
  ["sentry.io", "inforegulator.org.za", "example.com", "company.com",
   "siteadresiniz.com", "yourdomain.com", "domain.com", "email.com",
   "test.com", "localhost", "ftc.gov", "adr.org", "hs01.kep.tr",
   "ustoa.com", "abta.co.uk", "caa.co.uk", "sedgwick.com",
   "verasafe.com", "iyzico.com", "dvm.legal"]

/-- The constant `MAX_TLD_LEN`: valid TLDs are 2-12 chars. -/
def MAX_TLD_LEN : Nat := 12

/-- The constant `COMMON_TLD_PREFIXES`: a longer "TLD" starting with one of
these is junk. -/
def COMMON_TLD_PREFIXES : List String :=
  ["com", "net", "org", "co", "travel", "tours", "info"]

/-- The list `realCcTlds` (isValidEmail): country codes for which
`second-level.cc` is genuine. -/
def realCcTlds : List String :=
  ["tr", "uk", "au", "br", "cn", "de", "fr", "jp", "kr", "nl", "ru", "za", "in",
   "my", "sg", "nz", "mx", "ar", "il", "be", "at", "ch", "cz", "dk", "es", "fi",
   "gr", "hu", "ie", "it", "no", "pl", "pt", "ro", "se", "ua"]

/-- The regex `/^\d+[a-z]/i`: one or more digits followed by an ASCII letter.
Digits are never letters, so the backtracking search succeeds exactly when the
maximal leading digit run is nonempty and the next character is a letter. -/
def startsDigitsThenLetter (cs : List Char) : Bool :=
  (!(cs.takeWhile Char.isDigit).isEmpty) &&
    (match cs.dropWhile Char.isDigit with
     | c :: _ => isAsciiAlpha c
     | [] => false)

/-- The regex `/^u[0-9a-f]{4}/i`: HTML entity escape such as `u003e`. -/
def startsEntityEscape (cs : List Char) : Bool :=
  match cs with
  | c0 :: c1 :: c2 :: c3 :: c4 :: _ =>
    (c0 = 'u' || c0 = 'U') && isHexDigitCh c1 && isHexDigitCh c2 &&
      isHexDigitCh c3 && isHexDigitCh c4
  | _ => false

/-- The regex `/^[._%+-]/`. -/
def startsSpecialChar (cs : List Char) : Bool :=
  match cs with
  | c :: _ => c = '.' || c = '_' || c = '%' || c = '+' || c = '-'
  | [] => false

/-- Unanchored match of `\+?\d{2,}[-.]?\d{2,}` starting at this position.
Since the optional `+` only shifts the start, and the first `\d{2,}` is a
maximal digit run unless cut by the separator, the regex matches here exactly
when the leading digit run has length at least 4, or has length at least 2 and
is followed by `-` or `.` and then at least two more digits. -/
def phoneAt (cs : List Char) : Bool :=
  let r := (cs.takeWhile Char.isDigit).length
  decide (4 ≤ r) ||
    (decide (2 ≤ r) &&
      (match cs.dropWhile Char.isDigit with
       | c :: rest2 => (c = '-' || c = '.') && decide (2 ≤ (rest2.takeWhile Char.isDigit).length)
       | [] => false))

/-- The regex `/\+?\d{2,}[-.]?\d{2,}/` tested anywhere in the local part. -/
def containsPhone : List Char → Bool
  | [] => false
  | c :: t => phoneAt (c :: t) || containsPhone t

/-- The four local-part rejection rules of `isValidEmail`, in source order. -/
def localChecks (lcl : List Char) : Bool :=
  !(startsDigitsThenLetter lcl) && !(startsEntityEscape lcl) &&
    !(startsSpecialChar lcl) && !(containsPhone lcl)

/-- The `^(com|net|org|co|travel|tours)\.[a-z]{1,4}$` test (with the `i` flag)
on `secondLast ++ "." ++ tld`.  Neither part contains a dot (both are
segments of a split on `'.'`), so the alternation group must consume
`secondLast` exactly and `[a-z]{1,4}` must consume `tld` exactly. -/
def combinedGarbage (secondLast tld : List Char) : Bool :=
  (["com", "net", "org", "co", "travel", "tours"].any
      (fun g => g.data == lowerChars secondLast)) &&
    decide (1 ≤ tld.length) && decide (tld.length ≤ 4) && tld.all isAsciiAlpha

/-- The "second-level + tld looks like a known TLD with junk appended" rule:
reject unless the tld is a genuine country code. -/
def ccReject (dparts : List (List Char)) (tld : List Char) : Bool :=
  let secondLast := (dparts.get? (dparts.length - 2)).getD []
  combinedGarbage secondLast tld && decide (tld.length ≤ 4) &&
    !(realCcTlds.any (fun cc => cc.data == lowerChars tld))

/-- The TLD sanity rules of `isValidEmail`, in source order. -/
def tldChecks (domain : List Char) : Bool :=
  let dparts := splitOnChar '.' domain
  let tld := (dparts.getLast?).getD []
  (!(tld.isEmpty)) && decide (2 ≤ tld.length) && decide (tld.length ≤ MAX_TLD_LEN) &&
    tld.all isAsciiAlpha &&
    !(decide (6 < tld.length) &&
        COMMON_TLD_PREFIXES.any
          (fun p => p.data.isPrefixOf tld && decide (p.length < tld.length))) &&
    !(decide (2 ≤ dparts.length) && ccReject dparts tld)

/-- Full-domain denylist: exact or dot-suffix match against `JUNK_DOMAINS`. -/
def junkDomainReject (domain : List Char) : Bool :=
  JUNK_DOMAINS.any (fun jd => jd.data == domain || ('.' :: jd.data).isSuffixOf domain)

/-- The function `isValidEmail` (extractEmails module, lines 77-118): split on `'@'`, then
apply each rejection rule in source order.  The JavaScript early returns are
rendered as a short-circuit conjunction of the negated rejection conditions. -/
def isValidEmail (email : String) : Bool :=
  let parts := splitOnChar '@' email.data
  let lcl := parts.headD []
  match parts.get? 1 with
  | none => false
  | some domain =>
    (!(lcl.isEmpty)) && (!(domain.isEmpty)) &&
      localChecks lcl &&
      domain.contains '.' &&
      tldChecks domain &&
      !(junkDomainReject domain) &&
      decide (domain.length ≤ 253)

/-- Local part of an address: `email.split('@')[0] || ''`. -/
def localPartOf (email : String) : List Char :=
  (splitOnChar '@' email.data).headD []

/-- The source's `isJunkPrefix`: the local part equals a junk entry or
starts with `prefix + "."` or `prefix + "-"`. -/
def isJunkLocalPart (email : String) : Bool :=
  let lcl := localPartOf email
  JUNK_PREFIXES.any
    (fun p => p.data == lcl || (p.data ++ ['.']).isPrefixOf lcl ||
      (p.data ++ ['-']).isPrefixOf lcl)

/-- The source's `isGeneric`: same matching against `GENERIC_PREFIXES`. -/
def isGeneric (email : String) : Bool :=
  let lcl := localPartOf email
  GENERIC_PREFIXES.any
    (fun p => p.data == lcl || (p.data ++ ['.']).isPrefixOf lcl ||
      (p.data ++ ['-']).isPrefixOf lcl)


/-! ### Email candidates, extraction, merge and ranking -/

/-- An extracted email candidate (the record shape produced by
`extractEmailsRegex`, `extractEmailsWithLLM` and `mergeEmailResults`).
Confidences are the exact rationals the JavaScript numbers denote. -/
structure EmailCandidate where
  email : String
  source_url : String
  email_type : String
  confidence : Rat
  extracted_by : String
deriving DecidableEq, Repr

/-- The `push` closure of `extractEmailsRegex` folded over the candidate
strings delivered by the mailto/regex scan (`seen` is the dedup set). -/
def pushCandidates (sourceUrl : String) (seen : List String) :
    List String → List EmailCandidate
  | [] => []
  | raw :: rest =>
    let norm := normalizeEmail raw
    if norm.isEmpty || !(norm.data.contains '@') || seen.contains norm then
      pushCandidates sourceUrl seen rest
    else if !(isValidEmail norm) then pushCandidates sourceUrl seen rest
    else if isJunkLocalPart norm then pushCandidates sourceUrl seen rest
    else
      ⟨norm, sourceUrl, if isGeneric norm then "generic" else "personal",
        mkRat 9 10, "regex"⟩ :: pushCandidates sourceUrl (norm :: seen) rest

/-- The function `extractEmailsRegex` (lines 151-187).  The cheerio/mailto/regex scan is a
collaborator outside the embedding; its output — the raw candidate address
strings, in encounter order — is the `candidates` parameter.  The function
models everything the source applies to them: normalization, the `seen`
dedup set, validation, the junk-prefix filter, generic/personal typing,
confidence 0.9 and `extracted_by = 'regex'`. -/
def extractEmailsRegex (candidates : List String) (sourceUrl : String) :
    List EmailCandidate :=
  pushCandidates sourceUrl [] candidates

/-- One parsed entry of the LLM's JSON reply (`parsed.emails[i]`), before the
sanitizing loop of `extractEmailsWithLLM`.  A missing `email`/`type` field is
the empty string (falsy); `confidence = none` models `Number(e.confidence)`
returning `NaN`. -/
structure RawAiEmail where
  email : String
  etype : String
  confidence : Option Rat
deriving DecidableEq, Repr

/-- The sanitizing loop of `extractEmailsWithLLM` (openRouterExtract.js,
lines 60-77): lowercase+trim the address, drop entries without `'@'`,
normalize the type to one of generic/personal/unknown, clamp the confidence
to `[0, 1]` (`NaN` becomes 0), and tag with `extracted_by = 'ai'`. -/
def llmSanitize (sourceUrl : String) : List RawAiEmail → List EmailCandidate
  | [] => []
  | e :: rest =>
    let email := normalizeEmail e.email
    if email.isEmpty || !(email.data.contains '@') then llmSanitize sourceUrl rest
    else
      let t0 := lowerStr (if e.etype.isEmpty then "unknown" else e.etype)
      let t := if t0 = "generic" || t0 = "personal" || t0 = "unknown" then t0 else "unknown"
      let conf0 : Rat := (e.confidence.getD 0)
      let conf0 := if conf0 < 0 then 0 else conf0
      let conf := if 1 < conf0 then 1 else conf0
      ⟨email, sourceUrl, t, conf, "ai"⟩ :: llmSanitize sourceUrl rest

/-- Insertion-ordered map lookup (`Map.prototype.get`). -/
def getVal : List (String × EmailCandidate) → String → Option EmailCandidate
  | [], _ => none
  | (k', v) :: rest, k => if k' = k then some v else getVal rest k

/-- Insertion-ordered map write (`Map.prototype.set`): overwrite in place if
the key is present, else append. -/
def setVal (m : List (String × EmailCandidate)) (k : String) (v : EmailCandidate) :
    List (String × EmailCandidate) :=
  if (getVal m k).isSome then
    m.map (fun p => if p.1 = k then (k, v) else p)
  else m ++ [(k, v)]

/-- First loop of `mergeEmailResults`: seed the map from the regex results. -/
def buildRegexMap (m : List (String × EmailCandidate)) :
    List EmailCandidate → List (String × EmailCandidate)
  | [] => m
  | r :: rs => buildRegexMap (setVal m r.email r) rs

/-- The collision update of `mergeEmailResults`: `extracted_by = 'both'`,
confidence = max, and the AI type wins unless it is `'unknown'`. -/
def mergeRec (existing a : EmailCandidate) : EmailCandidate :=
  { existing with
    extracted_by := "both",
    confidence := max existing.confidence a.confidence,
    email_type := if a.email_type ≠ "unknown" then a.email_type else existing.email_type }

/-- Second loop of `mergeEmailResults`: fold in the AI results, re-validating
each one, merging on collision and appending otherwise. -/
def foldAi (m : List (String × EmailCandidate)) :
    List EmailCandidate → List (String × EmailCandidate)
  | [] => m
  | a :: rest =>
    if !(isValidEmail a.email) || isJunkLocalPart a.email then foldAi m rest
    else
      match getVal m a.email with
      | some existing => foldAi (setVal m a.email (mergeRec existing a)) rest
      | none => foldAi (m ++ [(a.email, a)]) rest

/-- The function `mergeEmailResults(aiList, regexList)` (lines 199-217). -/
def mergeEmailResults (aiList regexList : List EmailCandidate) :
    List EmailCandidate :=
  (foldAi (buildRegexMap [] regexList) aiList).map (fun p => p.2)

/-- The constant `priorityOrder` of `pickBestEmails`. -/
def priorityOrder : List String :=
  ["info", "contact", "sales", "booking", "bookings", "reservations",
   "office", "hello", "enquiry", "enquiries", "support"]

/-- The `_priority` computed by `pickBestEmails`: exact match in
`priorityOrder` first (`indexOf`), then prefix match (`findIndex` with
`startsWith`), then 50 for unlisted generic and 100 for personal. -/
def priorityOf (e : EmailCandidate) : Nat :=
  let lp := localPartOf e.email
  match priorityOrder.findIdx? (fun p => p.data == lp) with
  | some i => i
  | none =>
    match priorityOrder.findIdx? (fun p => p.data.isPrefixOf lp) with
    | some i => i
    | none => if e.email_type == "generic" then 50 else 100

/-- Comparator order of `scored.sort((a, b) => a._priority - b._priority)`. -/
def prioLE (a b : Nat × EmailCandidate) : Prop := a.1 ≤ b.1

instance : DecidableRel prioLE := fun a b => Nat.decLe a.1 b.1

instance : IsTotal (Nat × EmailCandidate) prioLE := ⟨fun a b => Nat.le_total a.1 b.1⟩

instance : IsTrans (Nat × EmailCandidate) prioLE := ⟨fun _ _ _ => Nat.le_trans⟩

/-- The function `pickBestEmails(emails, maxPerDomain)` (lines 223-241): tag each record
with its priority, stable-sort by priority (JavaScript `Array.prototype.sort`
is stable, which insertion sort reproduces), truncate, and strip the tag. -/
def pickBestEmails (emails : List EmailCandidate) (maxPerDomain : Nat) :
    List EmailCandidate :=
  let scored := emails.map (fun e => (priorityOf e, e))
  let sorted := scored.insertionSort prioLE
  (sorted.take maxPerDomain).map (fun p => p.2)

/-- Per-page input of `extractEmailsFromPages`: the page URL, whether `html`
is non-empty, the candidate strings the mailto/regex scan finds on it, whether
its visible text is non-blank, and the parsed entries the LLM returns for it. -/
structure PageData where
  url : String
  htmlNonempty : Bool
  emailCandidates : List String
  visibleTextNonempty : Bool
  aiRaw : List RawAiEmail

/-- The function `extractEmailsFromPages(pages, options)` (lines 249-274): per-page regex
extraction, optional per-page LLM extraction, merge, then rank and truncate. -/
def extractEmailsFromPages (pages : List PageData) (enableAi : Bool)
    (maxEmails : Nat) : List EmailCandidate :=
  let allRegex := (pages.map (fun p => extractEmailsRegex p.emailCandidates p.url)).flatten
  let allAi := (pages.map (fun p =>
    if enableAi && p.htmlNonempty && p.visibleTextNonempty then
      llmSanitize p.url p.aiRaw
    else [])).flatten
  pickBestEmails (mergeEmailResults allAi allRegex) maxEmails

/-! ### Relevance scorer (scoreRelevance module) -/

/-- The constant `TURKEY_TERMS`. -/
def TURKEY_TERMS : List String := ["turkey", "türkiye"]

/-- The constant `DESTINATION_TERMS`. -/
def DESTINATION_TERMS : List String :=
  ["antalya", "istanbul", "cappadocia", "pamukkale", "ephesus", "bodrum"]

/-- Result record of `scoreRelevance`. -/
structure ScoreResult where
  relevanceScore : Int
  matchedTerms : List String
deriving DecidableEq, Repr

/-- The function `scoreRelevance(combinedText, unrelatedKeywords)` (scoreRelevance.js,
lines 10-32): +2 if any Turkey term occurs in the lower-cased text, +1 per
destination term that occurs, -2 once if any lower-cased blocklist keyword
occurs. -/
def scoreRelevance (combinedText : String) (unrelatedKeywords : List String) :
    ScoreResult :=
  let text := lowerStr combinedText
  let s0 : Int × List String :=
    if TURKEY_TERMS.any (fun t => includesStr text t) then (2, ["Turkey/Türkiye"])
    else (0, [])
  let s1 : Int × List String :=
    DESTINATION_TERMS.foldl
      (fun p term => if includesStr text term then (p.1 + 1, p.2 ++ [term]) else p) s0
  let block := unrelatedKeywords.map lowerStr
  if block.any (fun k => includesStr text k) then ⟨s1.1 - 2, s1.2 ++ ["unrelated"]⟩
  else ⟨s1.1, s1.2⟩

/-- The scheduler's threshold test (`processOne`, lines 429-434): the domain
is kept exactly when `relevanceScore < minScore` is false. -/
def domainKept (relevanceScore minScore : Int) : Bool :=
  !(relevanceScore < minScore)

/-! ### Streaming extraction scheduler (createStreamingExtractor) -/

/-- The scheduler state the claims are about: the `processedDomains` set, the
`pendingTasks` queue (hostname paired with the depth the task will run at),
and the trace of crawl-step executions.  Domain records are reduced to their
hostname — the scheduler's set/queue logic reads no other field. -/
structure ExtState where
  processedDomains : List String
  pendingTasks : List (String × Nat)
  crawls : List String
deriving DecidableEq, Repr

/-- Fresh extractor state. -/
def initExtState : ExtState := ⟨[], [], []⟩

/-- The function `addDomain(rec)` (lines 471-476): if the hostname is already in the
processed set, return; otherwise enqueue a depth-0 task.  The processed set
itself is not touched here. -/
def addDomain (s : ExtState) (d : String) : ExtState :=
  if s.processedDomains.contains d then s
  else { s with pendingTasks := s.pendingTasks ++ [(d, 0)] }

/-- The snowball enqueue of `processOne` (lines 393-408): guard on the
processed set, then push a task for depth `depth + 1`. -/
def snowEnqueue (s : ExtState) (d : String) (depth : Nat) : ExtState :=
  if s.processedDomains.contains d then s
  else { s with pendingTasks := s.pendingTasks ++ [(d, depth + 1)] }

/-- The synchronous prefix of `processOne` (lines 349-360), which runs
atomically in the single-threaded event loop: re-check the processed set,
mark the hostname processed, skip Turkey-based domains (the pluggable
`isTurkeyBasedDomain` collaborator is the `turkey` parameter), and otherwise
enter the crawl step (recorded in the `crawls` trace). -/
def runTask (turkey : String → Bool) (s : ExtState) (d : String) : ExtState :=
  if s.processedDomains.contains d then s
  else
    let s1 := { s with processedDomains := d :: s.processedDomains }
    if turkey d then s1
    else { s1 with crawls := s1.crawls ++ [d] }

/-- Snowball configuration (`options.snowball`). -/
structure SnowballCfg where
  enabled : Bool
  maxDepth : Nat
  maxPerSource : Nat
deriving DecidableEq, Repr

/-- The snowball block of `processOne` (lines 389-410): when enabled and the
current depth is below the maximum, filter the candidate hostnames produced
by `extractOutboundTravelDomains` (its output is the `newDomains` parameter)
through the region filter, cap them at `maxNewDomainsPerSource`, and enqueue
every one not yet in the processed set at `depth + 1`. -/
def snowballStep (cfg : SnowballCfg) (turkey : String → Bool) (s : ExtState)
    (newDomains : List String) (depth : Nat) : ExtState :=
  if cfg.enabled && decide (depth < cfg.maxDepth) then
    let added := (newDomains.filter (fun sd => !(turkey sd))).take cfg.maxPerSource
    added.foldl (fun st sd => snowEnqueue st sd depth) s
  else s

/-- One atomic scheduler event: an `addDomain` submission (discovery or the
legacy file-based path), a snowball submission from a task running at some
depth, or the start of the queue's next pending task. -/
inductive SchedAct where
  | submit (d : String)
  | snowSubmit (d : String) (depth : Nat)
  | runNext
deriving DecidableEq, Repr

/-- Apply one scheduler event. -/
def schedStep (turkey : String → Bool) (s : ExtState) : SchedAct → ExtState
  | .submit d => addDomain s d
  | .snowSubmit d depth => snowEnqueue s d depth
  | .runNext =>
    match s.pendingTasks with
    | [] => s
    | (d, _) :: rest => runTask turkey { s with pendingTasks := rest } d

/-- Run a sequence of scheduler events. -/
def schedExec (turkey : String → Bool) : ExtState → List SchedAct → ExtState
  | s, [] => s
  | s, a :: rest => schedExec turkey (schedStep turkey s a) rest

/-! ### Page fetch with retry (crawlDomain.js) -/

/-- Observable outcome of one `fetchWithRetry` call: the returned body or the
thrown error (`none` is the `undefined` thrown when `retries = 0`), the
number of attempts made, and the sequence of back-off sleeps taken. -/
structure FetchTrace (ε β : Type) where
  result : Except (Option ε) β
  attempts : Nat
  sleeps : List Nat

/-- The retry loop of `fetchWithRetry` (crawlDomain.js, lines 48-66).  The
network call is the `oracle` collaborator: `oracle i` is what the `i`-th
`axios.get` would do.  `i` is the loop counter, `remaining = retries - i`
drives the recursion, and `last` is the `lastErr` variable. -/
def fetchGo (oracle : Nat → Except ε β) (delays : List Nat) (retries : Nat) :
    Nat → Nat → Option ε → FetchTrace ε β
  | _, 0, last => ⟨.error last, 0, []⟩
  | i, r + 1, _ =>
    match oracle i with
    | .ok d => ⟨.ok d, 1, []⟩
    | .error e =>
      ⟨(fetchGo oracle delays retries (i + 1) r (some e)).result,
       (fetchGo oracle delays retries (i + 1) r (some e)).attempts + 1,
       (if i < retries - 1 && decide (i < delays.length) then [delays.getD i 0] else [])
         ++ (fetchGo oracle delays retries (i + 1) r (some e)).sleeps⟩

/-- The function `fetchWithRetry(url, options)` (lines 40-67): up to `retries` attempts,
sleeping `delays[i]` after failed attempt `i` while `i < retries - 1` and the
delay exists; the first success returns its body; exhaustion throws the
`lastErr` variable unchanged. -/
def fetchWithRetry (oracle : Nat → Except ε β) (retries : Nat)
    (delays : List Nat) : FetchTrace ε β :=
  fetchGo oracle delays retries 0 retries none

/-! ### Invariant definitions used by the theorems -/

/-- The crawl-trace invariant: every hostname occurs at most once in the
trace, and every crawled hostname is in the processed set. -/
def CrawlInv (s : ExtState) : Prop :=
  (∀ d : String, s.crawls.count d ≤ 1) ∧
    (∀ d : String, d ∈ s.crawls → d ∈ s.processedDomains)

/-- Well-formedness of the insertion-ordered map: keys are distinct and every
stored candidate's email equals its key. -/
def MapWf (m : List (String × EmailCandidate)) : Prop :=
  (m.map (fun p => p.1)).Nodup ∧ ∀ p ∈ m, p.2.email = p.1

/-- The invariant C6 asserts of every candidate in the pipeline's output. -/
def CandOk (c : EmailCandidate) : Prop :=
  c.email = normalizeEmail c.email ∧ isValidEmail c.email = true ∧
    isJunkLocalPart c.email = false

/-! ### Lemmas about the string model -/

theorem dropWhile_idem (p : Char → Bool) (l : List Char) :
    (l.dropWhile p).dropWhile p = l.dropWhile p := by
  induction l with
  | nil => rfl
  | cons c t ih =>
    by_cases h : p c
    · simp [List.dropWhile_cons, h, ih]
    · simp [List.dropWhile_cons, h]

theorem dropWhile_append_singleton (p : Char → Bool) (c : Char) (hc : ¬ p c) :
    ∀ l : List Char, ∃ m, (l ++ [c]).dropWhile p = m ++ [c]
  | [] => ⟨[], by simp [List.dropWhile_cons, hc]⟩
  | a :: l => by
    by_cases h : p a
    · obtain ⟨m, hm⟩ := dropWhile_append_singleton p c hc l
      exact ⟨m, by simp [List.dropWhile_cons, h, hm]⟩
    · exact ⟨a :: l, by simp [List.dropWhile_cons, h]⟩

theorem dropWhile_head_not (p : Char → Bool) (l : List Char) :
    l.dropWhile p = [] ∨ ∃ c t, l.dropWhile p = c :: t ∧ ¬ p c := by
  induction l with
  | nil => exact Or.inl rfl
  | cons a l ih =>
    by_cases h : p a
    · simpa [List.dropWhile_cons, h] using ih
    · exact Or.inr ⟨a, l, by simp [List.dropWhile_cons, h], h⟩

theorem trimChars_idem (l : List Char) : trimChars (trimChars l) = trimChars l := by
  have t1 : (trimChars l).dropWhile isWsChar = trimChars l := by
    rcases dropWhile_head_not isWsChar l with h | ⟨c, t, h, hc⟩
    · simp [trimChars, h]
    · obtain ⟨m', hm'⟩ := dropWhile_append_singleton isWsChar c hc t.reverse
      have hl : trimChars l = c :: m'.reverse := by
        simp [trimChars, h, hm']
      simp [hl, List.dropWhile_cons, hc]
  have t2 : (trimChars l).reverse.dropWhile isWsChar = (trimChars l).reverse := by
    simp only [trimChars, List.reverse_reverse]
    exact dropWhile_idem _ _
  show (((trimChars l).dropWhile isWsChar).reverse.dropWhile isWsChar).reverse = trimChars l
  rw [t1, t2, List.reverse_reverse]

theorem trimChars_subset (l : List Char) : ∀ c ∈ trimChars l, c ∈ l := by
  intro c hc
  simp only [trimChars, List.mem_reverse] at hc
  exact (List.dropWhile_sublist _).subset ((List.mem_reverse).mp ((List.dropWhile_sublist _).subset hc))

theorem char_toNat_ofNat {n : Nat} (h : n < 0xd800) : (Char.ofNat n).toNat = n := by
  have hv : n.isValidChar := Or.inl h
  unfold Char.ofNat
  rw [dif_pos hv]
  rfl

theorem toLower_idem (c : Char) : c.toLower.toLower = c.toLower := by
  unfold Char.toLower
  by_cases h : c.toNat ≥ 65 ∧ c.toNat ≤ 90
  · rw [if_pos h]
    have h32 : (Char.ofNat (c.toNat + 32)).toNat = c.toNat + 32 :=
      char_toNat_ofNat (by omega)
    rw [if_neg (by rw [h32]; omega)]
  · rw [if_neg h, if_neg h]

theorem map_fix {α : Type} (f : α → α) :
    ∀ l : List α, (∀ c ∈ l, f c = c) → l.map f = l
  | [], _ => rfl
  | a :: t, h => by
    have ha : f a = a := h a (by simp)
    have ht := map_fix f t (fun c hc => h c (by simp [hc]))
    simp [ha, ht]

theorem normalizeEmail_idem (s : String) :
    normalizeEmail (normalizeEmail s) = normalizeEmail s := by
  show String.mk (trimChars (lowerChars (trimChars (lowerChars s.data)))) = _
  have hfix : lowerChars (trimChars (lowerChars s.data)) = trimChars (lowerChars s.data) := by
    apply map_fix
    intro c hc
    have hmem := trimChars_subset _ c hc
    simp only [lowerChars, List.mem_map] at hmem
    obtain ⟨x, _, rfl⟩ := hmem
    exact toLower_idem x
  rw [hfix, trimChars_idem]
  rfl

/-! ### Theorems: relevance scoring (C8) -/

theorem destFoldClosed (text : String) :
    ∀ (l : List String) (s : Int) (m : List String),
      l.foldl (fun p term => if includesStr text term then (p.1 + 1, p.2 ++ [term]) else p) (s, m)
        = (s + (l.countP (fun term => includesStr text term) : Int),
           m ++ l.filter (fun term => includesStr text term))
  | [], s, m => by simp
  | t :: ts, s, m => by
    by_cases h : includesStr text t
    · rw [List.foldl_cons, if_pos h, destFoldClosed text ts (s + 1) (m ++ [t])]
      refine Prod.ext ?_ (by simp [h])
      simp [List.countP_cons, h]
      ring
    · rw [List.foldl_cons, if_neg h, destFoldClosed text ts s m]
      simp [List.countP_cons, h]

theorem scoreRelevance_closed (text : String) (kws : List String) :
    (scoreRelevance text kws).relevanceScore =
      (if TURKEY_TERMS.any (fun t => includesStr (lowerStr text) t) then 2 else 0)
        + (DESTINATION_TERMS.countP (fun t => includesStr (lowerStr text) t) : Int)
        - (if (kws.map lowerStr).any (fun k => includesStr (lowerStr text) k) then 2 else 0) := by
  unfold scoreRelevance
  by_cases hT : TURKEY_TERMS.any (fun t => includesStr (lowerStr text) t) <;>
    by_cases hB : (kws.map lowerStr).any (fun k => includesStr (lowerStr text) k) <;>
      simp only [hT, hB, destFoldClosed, if_true, if_false, Bool.false_eq_true,
        ite_true, ite_false] <;> omega

/-- C8: `scoreRelevance` lower-cases the text and scores +2 if any core-region
(Turkey) term appears, +1 per distinct destination term of the fixed list that
appears, and -2 once if any caller-supplied blocklist keyword appears; text
with the core term and exactly one destination term scores 3, and the
scheduler keeps a domain exactly when the score reaches `minScore` (kept at
`minScore = 2`, skipped at `minScore = 4`). -/
theorem C8_relevance_additive_model :
    (∀ (text : String) (kws : List String),
      (scoreRelevance text kws).relevanceScore =
        (if TURKEY_TERMS.any (fun t => includesStr (lowerStr text) t) then 2 else 0)
          + (DESTINATION_TERMS.countP (fun t => includesStr (lowerStr text) t) : Int)
          - (if (kws.map lowerStr).any (fun k => includesStr (lowerStr text) k) then 2 else 0))
    ∧ (scoreRelevance "Turkey tours in Antalya" []).relevanceScore = 3
    ∧ (∀ sc ms : Int, domainKept sc ms = true ↔ ms ≤ sc)
    ∧ domainKept (scoreRelevance "Turkey tours in Antalya" []).relevanceScore 2 = true
    ∧ domainKept (scoreRelevance "Turkey tours in Antalya" []).relevanceScore 4 = false := by
  refine ⟨scoreRelevance_closed, by decide, ?_, by decide, by decide⟩
  intro sc ms
  simp [domainKept]

/-! ### Theorems: email validation boundary (C5) -/

theorem tldChecks_false_of_commonTld (domain : List Char)
    (h6 : 6 < (((splitOnChar '.' domain).getLast?).getD []).length)
    (hp : COMMON_TLD_PREFIXES.any
        (fun p => p.data.isPrefixOf (((splitOnChar '.' domain).getLast?).getD []) &&
          decide (p.length < (((splitOnChar '.' domain).getLast?).getD []).length)) = true) :
    tldChecks domain = false := by
  unfold tldChecks
  simp only [decide_eq_true_eq] at hp ⊢
  rw [hp]
  simp [h6]

theorem tldChecks_false_of_ccReject (domain : List Char)
    (h2 : 2 ≤ (splitOnChar '.' domain).length)
    (hcc : ccReject (splitOnChar '.' domain) (((splitOnChar '.' domain).getLast?).getD []) = true) :
    tldChecks domain = false := by
  simp only [tldChecks]
  rw [hcc]
  simp [h2]

theorem isValidEmail_false_of_tldChecks (email : String)
    (h : tldChecks (((splitOnChar '@' email.data).get? 1).getD []) = false) :
    isValidEmail email = false := by
  simp only [isValidEmail]
  cases hd : (splitOnChar '@' email.data).get? 1 with
  | none => rfl
  | some domain =>
    rw [hd] at h
    simp only [Option.getD_some] at h
    simp [h]

/-- C5: email validation accepts `info@site.com` and `sales@site.com.tr` but
rejects `info@site.comphone` and `office@site.com.you`; in general, an
apparent TLD longer than 6 characters that extends a common TLD prefix is
rejected, and a second-level label in com/net/org/co/travel/tours followed by
a short final label is rejected unless that label is in the fixed two-letter
country-code exception list (the `ccReject` rule). -/
theorem C5_validation_boundary :
    isValidEmail "info@site.com" = true
    ∧ isValidEmail "sales@site.com.tr" = true
    ∧ isValidEmail "info@site.comphone" = false
    ∧ isValidEmail "office@site.com.you" = false
    ∧ (∀ email : String,
        6 < (((splitOnChar '.' (((splitOnChar '@' email.data).get? 1).getD [])).getLast?).getD []).length →
        COMMON_TLD_PREFIXES.any
            (fun p => p.data.isPrefixOf
                (((splitOnChar '.' (((splitOnChar '@' email.data).get? 1).getD [])).getLast?).getD []) &&
              decide (p.length <
                (((splitOnChar '.' (((splitOnChar '@' email.data).get? 1).getD [])).getLast?).getD []).length)) = true →
        isValidEmail email = false)
    ∧ (∀ email : String,
        2 ≤ (splitOnChar '.' (((splitOnChar '@' email.data).get? 1).getD [])).length →
        ccReject (splitOnChar '.' (((splitOnChar '@' email.data).get? 1).getD []))
            (((splitOnChar '.' (((splitOnChar '@' email.data).get? 1).getD [])).getLast?).getD []) = true →
        isValidEmail email = false) := by
  refine ⟨by decide, by decide, by decide, by decide, ?_, ?_⟩
  · intro email h6 hp
    exact isValidEmail_false_of_tldChecks email (tldChecks_false_of_commonTld _ h6 hp)
  · intro email h2 hcc
    exact isValidEmail_false_of_tldChecks email (tldChecks_false_of_ccReject _ h2 hcc)

/-- Witness for C5: the general rejection rules applied at concrete inputs. -/
theorem C5_validation_boundary_witness :
    isValidEmail "team@agency.comwebsite" = false
    ∧ isValidEmail "team@agency.com.xy" = false :=
  ⟨C5_validation_boundary.2.2.2.2.1 "team@agency.comwebsite" (by decide) (by decide),
   C5_validation_boundary.2.2.2.2.2 "team@agency.com.xy" (by decide) (by decide)⟩

/-! ### Theorems: scheduler at-most-once processing (C1, C2) -/

theorem addDomain_crawls (s : ExtState) (d : String) :
    (addDomain s d).crawls = s.crawls ∧
      (addDomain s d).processedDomains = s.processedDomains := by
  unfold addDomain
  split <;> exact ⟨rfl, rfl⟩

theorem snowEnqueue_crawls (s : ExtState) (d : String) (depth : Nat) :
    (snowEnqueue s d depth).crawls = s.crawls ∧
      (snowEnqueue s d depth).processedDomains = s.processedDomains := by
  unfold snowEnqueue
  split <;> exact ⟨rfl, rfl⟩

theorem contains_iff_mem (l : List String) (a : String) : l.contains a = true ↔ a ∈ l := by
  rw [List.contains_eq_any_beq, List.any_eq_true]
  constructor
  · rintro ⟨x, hx, hbeq⟩
    rw [beq_iff_eq] at hbeq
    exact hbeq ▸ hx
  · intro h
    exact ⟨a, h, by simp⟩

theorem runTask_inv (turkey : String → Bool) (s : ExtState) (d : String)
    (h : CrawlInv s) : CrawlInv (runTask turkey s d) := by
  obtain ⟨h1, h2⟩ := h
  unfold runTask
  by_cases hc : s.processedDomains.contains d
  · simp only [hc, if_true]
    exact ⟨h1, h2⟩
  · simp only [hc, Bool.false_eq_true, if_false]
    by_cases ht : turkey d
    · simp only [ht, if_true]
      exact ⟨h1, fun d' hd' => List.mem_cons_of_mem _ (h2 d' hd')⟩
    · simp only [ht, Bool.false_eq_true, if_false]
      have hdnot : d ∉ s.crawls := fun hmem =>
        hc ((contains_iff_mem _ _).mpr (h2 d hmem))
      constructor
      · intro d'
        rw [List.count_append]
        by_cases hdd : d' = d
        · subst hdd
          have hz : List.count d' s.crawls = 0 := List.count_eq_zero.mpr hdnot
          simp [hz]
        · have hz : List.count d' [d] = 0 := by
            simp only [List.count_cons, List.count_nil, beq_iff_eq]
            simp only [Nat.zero_add, ite_eq_right_iff]
            intro hh
            exact absurd hh.symm hdd
          rw [hz]
          simpa using h1 d'
      · intro d' hd'
        rcases List.mem_append.mp hd' with hmem | hmem
        · exact List.mem_cons_of_mem _ (h2 d' hmem)
        · simp only [List.mem_singleton] at hmem
          subst hmem
          exact List.mem_cons_self _ _

theorem schedStep_inv (turkey : String → Bool) (s : ExtState) (a : SchedAct)
    (h : CrawlInv s) : CrawlInv (schedStep turkey s a) := by
  cases a with
  | submit d =>
    obtain ⟨hc, hp⟩ := addDomain_crawls s d
    exact ⟨fun d' => hc ▸ h.1 d', fun d' hd' => hp ▸ h.2 d' (hc ▸ hd')⟩
  | snowSubmit d depth =>
    obtain ⟨hc, hp⟩ := snowEnqueue_crawls s d depth
    exact ⟨fun d' => hc ▸ h.1 d', fun d' hd' => hp ▸ h.2 d' (hc ▸ hd')⟩
  | runNext =>
    unfold schedStep
    cases hq : s.pendingTasks with
    | nil => exact h
    | cons t rest =>
      exact runTask_inv turkey _ t.1 ⟨h.1, h.2⟩

theorem schedExec_inv (turkey : String → Bool) :
    ∀ (acts : List SchedAct) (s : ExtState), CrawlInv s → CrawlInv (schedExec turkey s acts)
  | [], _, h => h
  | a :: rest, s, h => schedExec_inv turkey rest _ (schedStep_inv turkey s a h)

/-- C1: over any sequence of scheduler events — `addDomain` submissions from
discovery or the legacy file path, snowball submissions at any depth
(including re-discovery of a hostname whose task is still pending or in
flight), and task starts — the crawl step executes at most once per hostname:
the crawl trace of the final state contains each hostname at most once. -/
theorem C1_at_most_once_crawl (turkey : String → Bool) (acts : List SchedAct)
    (d : String) : (schedExec turkey initExtState acts).crawls.count d ≤ 1 :=
  (schedExec_inv turkey acts initExtState
    ⟨fun _ => by simp [initExtState], fun _ h => by simp [initExtState] at h⟩).1 d

/-- Counterexample to C2 as stated: immediately after `addDomain` on a fresh
state returns, the submitted hostname is **not** in the processed set — the
code defers marking to the start of task execution. -/
theorem C2_counterexample :
    (addDomain initExtState "a.com").processedDomains.contains "a.com" = false := by
  decide

/-- C2 (amended): `addDomain` is a no-op when the hostname is already in the
processed set; otherwise it enqueues a depth-0 task without touching the
processed set.  The hostname is marked processed at the start of task
execution (before the crawl step), not at submission time. -/
theorem C2_addDomain_defers_marking (s : ExtState) (d : String) :
    (s.processedDomains.contains d = true → addDomain s d = s)
    ∧ (s.processedDomains.contains d = false →
        (addDomain s d).processedDomains = s.processedDomains
        ∧ (addDomain s d).pendingTasks = s.pendingTasks ++ [(d, 0)])
    ∧ (∀ turkey : String → Bool,
        (runTask turkey s d).processedDomains.contains d = true) := by
  refine ⟨fun h => ?_, fun h => ?_, fun turkey => ?_⟩
  · have hm : d ∈ s.processedDomains := (contains_iff_mem _ _).mp h
    simp [addDomain, hm]
  · have hm : d ∉ s.processedDomains := fun hmem => by
      rw [(contains_iff_mem _ _).mpr hmem] at h
      exact Bool.true_eq_false.mp h
    constructor <;> simp [addDomain, hm]
  · unfold runTask
    by_cases hc : s.processedDomains.contains d = true
    · rw [if_pos hc]
      exact hc
    · rw [if_neg hc]
      by_cases ht : turkey d = true
      · rw [if_pos ht]
        exact (contains_iff_mem _ _).mpr (List.mem_cons_self _ _)
      · rw [if_neg ht]
        exact (contains_iff_mem _ _).mpr (List.mem_cons_self _ _)

/-- Witness for C2's amended theorem at a concrete fresh state. -/
theorem C2_addDomain_defers_marking_witness :
    (addDomain initExtState "a.com").processedDomains = []
    ∧ (addDomain initExtState "a.com").pendingTasks = [("a.com", 0)]
    ∧ (runTask (fun _ => false) initExtState "a.com").processedDomains.contains "a.com" = true :=
  ⟨((C2_addDomain_defers_marking initExtState "a.com").2.1 (by decide)).1,
   ((C2_addDomain_defers_marking initExtState "a.com").2.1 (by decide)).2,
   (C2_addDomain_defers_marking initExtState "a.com").2.2 (fun _ => false)⟩

/-! ### Theorems: snowball enqueue cap (C9) -/

theorem snowEnqueue_pending_le (s : ExtState) (d : String) (depth : Nat) :
    (snowEnqueue s d depth).pendingTasks.length ≤ s.pendingTasks.length + 1 := by
  unfold snowEnqueue
  split
  · omega
  · simp

theorem snowFold_pending_le (depth : Nat) :
    ∀ (l : List String) (s : ExtState),
      (l.foldl (fun st sd => snowEnqueue st sd depth) s).pendingTasks.length
        ≤ s.pendingTasks.length + l.length
  | [], s => Nat.le_refl _
  | d :: rest, s => by
    have h1 := snowFold_pending_le depth rest (snowEnqueue s d depth)
    have h2 := snowEnqueue_pending_le s d depth
    simp only [List.foldl_cons, List.length_cons]
    omega

theorem snowFold_all_new (depth : Nat) :
    ∀ (l : List String) (s : ExtState),
      (∀ d ∈ l, s.processedDomains.contains d = false) →
      (l.foldl (fun st sd => snowEnqueue st sd depth) s).pendingTasks
        = s.pendingTasks ++ l.map (fun d => (d, depth + 1))
  | [], s, _ => by simp
  | d :: rest, s, h => by
    have hd : s.processedDomains.contains d = false := h d (List.mem_cons_self _ _)
    have hstep : snowEnqueue s d depth
        = { s with pendingTasks := s.pendingTasks ++ [(d, depth + 1)] } := by
      unfold snowEnqueue
      rw [if_neg (by rw [hd]; exact Bool.false_ne_true)]
    have hrest := snowFold_all_new depth rest (snowEnqueue s d depth)
      (fun d' hd' => by rw [hstep]; exact h d' (List.mem_cons_of_mem _ hd'))
    simp only [List.foldl_cons]
    rw [hrest, hstep]
    simp

/-- C9: for a crawled domain at depth below the maximum with snowball enabled,
at most `maxNewDomainsPerSource` new tasks are enqueued; and when the pages
yield 15 candidate peer domains, none excluded by the region filter and none
already processed, with `maxNewDomainsPerSource = 10`, exactly the first 10
are enqueued, each as a task at `depth + 1`. -/
theorem C9_snowball_cap (cfg : SnowballCfg) (turkey : String → Bool)
    (s : ExtState) (newDomains : List String) (depth : Nat) :
    ((snowballStep cfg turkey s newDomains depth).pendingTasks.length
        ≤ s.pendingTasks.length + cfg.maxPerSource)
    ∧ (cfg.enabled = true → depth < cfg.maxDepth → cfg.maxPerSource = 10 →
        newDomains.length = 15 →
        (∀ d ∈ newDomains, turkey d = false) →
        (∀ d ∈ newDomains, s.processedDomains.contains d = false) →
        (snowballStep cfg turkey s newDomains depth).pendingTasks
            = s.pendingTasks ++ (newDomains.take 10).map (fun d => (d, depth + 1))
          ∧ ((newDomains.take 10).map (fun d => (d, depth + 1))).length = 10) := by
  constructor
  · simp only [snowballStep]
    split
    · have hlen := snowFold_pending_le depth
        ((newDomains.filter (fun sd => !(turkey sd))).take cfg.maxPerSource) s
      have htake : ((newDomains.filter (fun sd => !(turkey sd))).take cfg.maxPerSource).length
          ≤ cfg.maxPerSource := List.length_take_le cfg.maxPerSource _
      omega
    · omega
  · intro hen hdep hmax hlen hturkey hproc
    have hfil : newDomains.filter (fun sd => !(turkey sd)) = newDomains := by
      rw [List.filter_eq_self]
      intro d hd
      rw [hturkey d hd]
      rfl
    have hcond : (cfg.enabled && decide (depth < cfg.maxDepth)) = true := by
      rw [hen, decide_eq_true hdep]
      rfl
    simp only [snowballStep]
    rw [if_pos hcond, hfil, hmax]
    constructor
    · exact snowFold_all_new depth (newDomains.take 10) s
        (fun d hd => hproc d (List.take_subset _ _ hd))
    · simp [List.length_take, hlen]

/-- Witness for C9 at 15 concrete candidate domains and `maxPerSource = 10`. -/
theorem C9_snowball_cap_witness :
    (snowballStep ⟨true, 1, 10⟩ (fun _ => false) initExtState
        ["d0.com", "d1.com", "d2.com", "d3.com", "d4.com", "d5.com", "d6.com",
         "d7.com", "d8.com", "d9.com", "d10.com", "d11.com", "d12.com",
         "d13.com", "d14.com"] 0).pendingTasks
      = ["d0.com", "d1.com", "d2.com", "d3.com", "d4.com", "d5.com", "d6.com",
         "d7.com", "d8.com", "d9.com"].map (fun d => (d, 1)) := by
  have h := (C9_snowball_cap ⟨true, 1, 10⟩ (fun _ => false) initExtState
      ["d0.com", "d1.com", "d2.com", "d3.com", "d4.com", "d5.com", "d6.com",
       "d7.com", "d8.com", "d9.com", "d10.com", "d11.com", "d12.com",
       "d13.com", "d14.com"] 0).2 rfl (by decide) rfl (by decide)
      (by decide) (by decide)
  rw [h.1]
  decide

/-! ### Theorems: fetch retry behaviour (C7) -/

theorem fetchGo_attempts_le (oracle : Nat → Except ε β) (delays : List Nat)
    (retries : Nat) :
    ∀ (r i : Nat) (last : Option ε),
      (fetchGo oracle delays retries i r last).attempts ≤ r
  | 0, _, _ => Nat.le_refl 0
  | r + 1, i, last => by
    unfold fetchGo
    cases h : oracle i with
    | ok d => exact Nat.succ_le_succ (Nat.zero_le r)
    | error e =>
      have := fetchGo_attempts_le oracle delays retries r (i + 1) (some e)
      simpa using Nat.succ_le_succ this

theorem drop_take_sleeps (delays : List Nat) (n i : Nat) (hin : i < n) :
    ((if decide (i < n) && decide (i < delays.length) then [delays.getD i 0] else [])
        ++ (delays.take n).drop (i + 1))
      = (delays.take n).drop i := by
  by_cases h : i < delays.length
  · have hX : i < (delays.take n).length := by
      rw [List.length_take]
      omega
    rw [if_pos (by simp [hin, h]), List.drop_eq_getElem_cons hX,
      List.singleton_append]
    congr 1
    rw [List.getElem_take]
    exact List.getD_eq_getElem delays 0 h
  · have hge : (delays.take n).length ≤ i := by
      rw [List.length_take]
      omega
    rw [if_neg (by simp [h]), List.drop_eq_nil_of_le hge,
      List.drop_eq_nil_of_le (Nat.le_succ_of_le hge)]
    rfl

theorem fetchGo_all_fail (oracle : Nat → Except ε β) (delays : List Nat)
    (retries : Nat) (errOf : Nat → ε)
    (hfail : ∀ j, j < retries → oracle j = .error (errOf j)) :
    ∀ (r i : Nat) (last : Option ε), i + r = retries → 0 < r →
      fetchGo oracle delays retries i r last
        = ⟨.error (some (errOf (retries - 1))), r, (delays.take (retries - 1)).drop i⟩
  | 0, _, _, _, hr => absurd hr (Nat.lt_irrefl 0)
  | r + 1, i, last, htot, _ => by
    have hi : i < retries := by omega
    have hoi := hfail i hi
    unfold fetchGo
    rw [hoi]
    dsimp only
    cases r with
    | zero =>
      have hieq : i = retries - 1 := by omega
      subst hieq
      have hdrop : (delays.take (retries - 1)).drop (retries - 1) = [] :=
        List.drop_eq_nil_of_le (by rw [List.length_take]; omega)
      simp [fetchGo, hdrop]
    | succ r' =>
      have hrec := fetchGo_all_fail oracle delays retries errOf hfail (r' + 1) (i + 1)
        (some (errOf i)) (by omega) (Nat.succ_pos r')
      rw [hrec]
      have hin : i < retries - 1 := by omega
      have := drop_take_sleeps delays (retries - 1) i hin
      simp only [decide_eq_true hin] at this ⊢
      rw [this]

theorem fetchGo_first_success (oracle : Nat → Except ε β) (delays : List Nat)
    (retries k : Nat) (b : β) (hk : k < retries) (hok : oracle k = .ok b)
    (errOf : Nat → ε) (hfail : ∀ j, j < k → oracle j = .error (errOf j)) :
    ∀ (r i : Nat) (last : Option ε), i + r = retries → i ≤ k →
      fetchGo oracle delays retries i r last
        = ⟨.ok b, k + 1 - i, (delays.take k).drop i⟩
  | 0, i, last, htot, hik => absurd hk (by omega)
  | r + 1, i, last, htot, hik => by
    unfold fetchGo
    by_cases hieq : i = k
    · subst hieq
      rw [hok]
      dsimp only
      have hdrop : (delays.take i).drop i = [] :=
        List.drop_eq_nil_of_le (by rw [List.length_take]; omega)
      rw [hdrop]
      congr 1
      omega
    · have hi : i < k := Nat.lt_of_le_of_ne hik hieq
      rw [hfail i hi]
      dsimp only
      have hrec := fetchGo_first_success oracle delays retries k b hk hok errOf hfail
        r (i + 1) (some (errOf i)) (by omega) (by omega)
      rw [hrec]
      have hin : i < k := hi
      have hslice := drop_take_sleeps delays k i hin
      have hguard : decide (i < retries - 1) = decide (i < k) := by
        rw [decide_eq_true (by omega : i < retries - 1), decide_eq_true hin]
      rw [hguard, hslice]
      dsimp only
      have hatt : k + 1 - (i + 1) + 1 = k + 1 - i := by omega
      rw [hatt]

/-- C7 (amended): the retry loop makes at most `retries` attempts; when every
attempt fails it makes exactly `retries` attempts, sleeps `delays[i]` after
failed attempt `i` for each `i < retries - 1` with a configured delay, and
rethrows the **last underlying error itself** (no `FetchError` wrapper with
the url exists in the code); when attempt `k` is the first success it returns
that attempt's body after `k + 1` attempts and sleeps `delays.take k`. -/
theorem C7_fetch_retry {ε β : Type} (oracle : Nat → Except ε β) (retries : Nat)
    (delays : List Nat) :
    ((fetchWithRetry oracle retries delays).attempts ≤ retries)
    ∧ (∀ errOf : Nat → ε, (∀ j, j < retries → oracle j = .error (errOf j)) →
        0 < retries →
        fetchWithRetry oracle retries delays
          = ⟨.error (some (errOf (retries - 1))), retries, delays.take (retries - 1)⟩)
    ∧ (∀ (k : Nat) (b : β) (errOf : Nat → ε), k < retries → oracle k = .ok b →
        (∀ j, j < k → oracle j = .error (errOf j)) →
        fetchWithRetry oracle retries delays = ⟨.ok b, k + 1, delays.take k⟩) := by
  refine ⟨fetchGo_attempts_le oracle delays retries retries 0 none, ?_, ?_⟩
  · intro errOf hfail hpos
    unfold fetchWithRetry
    rw [fetchGo_all_fail oracle delays retries errOf hfail retries 0 none
      (Nat.zero_add retries) hpos]
    rw [List.drop_zero]
  · intro k b errOf hk hok hfail
    unfold fetchWithRetry
    rw [fetchGo_first_success oracle delays retries k b hk hok errOf hfail retries 0 none
      (Nat.zero_add retries) (Nat.zero_le k)]
    rw [List.drop_zero]
    congr 1

/-- Witness for C7 at concrete oracles: two failing attempts with
`retries = 2`, and a failure followed by a success. -/
theorem C7_fetch_retry_witness :
    fetchWithRetry (fun j => (Except.error (if j = 0 then "timeout" else "reset")
        : Except String Nat)) 2 [1000, 2000]
      = ⟨.error (some "reset"), 2, [1000]⟩
    ∧ fetchWithRetry (fun j => (if j = 0 then .error "timeout" else .ok 42
        : Except String Nat)) 2 [1000, 2000]
      = ⟨.ok 42, 2, [1000]⟩ := by
  constructor
  · have h := (C7_fetch_retry (fun j => (Except.error (if j = 0 then "timeout" else "reset")
        : Except String Nat)) 2 [1000, 2000]).2.1
      (fun j => if j = 0 then "timeout" else "reset")
      (fun j _ => rfl) (by omega)
    simpa using h
  · have h := (C7_fetch_retry (fun j => (if j = 0 then .error "timeout" else .ok 42
        : Except String Nat)) 2 [1000, 2000]).2.2 1 42
      (fun _ => "timeout")
      (by omega) rfl
      (fun j hj => by interval_cases j; rfl)
    simpa using h

/-- Counterexample to C7 as stated: the value raised after exhausting retries
is the last underlying cause itself, unmodified — the code ends with
`throw lastErr` and no `FetchError{url, lastCause}` wrapper exists anywhere
in the repository. -/
theorem C7_counterexample :
    (fetchWithRetry (fun _ => (Except.error "socket hang up" : Except String Nat))
        2 [1000]).result
      = Except.error (some "socket hang up") := by
  rfl

/-! ### Theorems: email ranking (C4) -/

theorem mem_scored_fst {emails : List EmailCandidate} {x : Nat × EmailCandidate}
    (hx : x ∈ (emails.map (fun e => (priorityOf e, e))).insertionSort prioLE) :
    x.1 = priorityOf x.2 ∧ x.2 ∈ emails := by
  have hmem : x ∈ emails.map (fun e => (priorityOf e, e)) :=
    (List.perm_insertionSort prioLE _).subset hx
  obtain ⟨e, he, rfl⟩ := List.mem_map.mp hmem
  exact ⟨rfl, he⟩

theorem pickBest_length (emails : List EmailCandidate) (k : Nat) :
    (pickBestEmails emails k).length = min k emails.length := by
  unfold pickBestEmails
  rw [List.length_map, List.length_take,
    (List.perm_insertionSort prioLE _).length_eq, List.length_map]

theorem pickBest_sorted (emails : List EmailCandidate) (k : Nat) :
    (pickBestEmails emails k).Pairwise (fun a b => priorityOf a ≤ priorityOf b) := by
  unfold pickBestEmails
  rw [List.pairwise_map]
  have hs : ((emails.map (fun e => (priorityOf e, e))).insertionSort prioLE).Pairwise prioLE :=
    List.sorted_insertionSort prioLE _
  have ht : (((emails.map (fun e => (priorityOf e, e))).insertionSort prioLE).take k).Pairwise prioLE :=
    List.Pairwise.sublist (List.take_sublist k _) hs
  refine ht.imp_of_mem ?_
  intro a b ha hb hab
  have ha' := mem_scored_fst (List.take_subset _ _ ha)
  have hb' := mem_scored_fst (List.take_subset _ _ hb)
  rw [← ha'.1, ← hb'.1]
  exact hab

theorem pickBest_omitted (emails : List EmailCandidate) (k : Nat) (b : EmailCandidate)
    (hb : b ∈ emails) (hnb : b ∉ pickBestEmails emails k) :
    ∀ a ∈ pickBestEmails emails k, priorityOf a ≤ priorityOf b := by
  intro a ha
  simp only [pickBestEmails] at ha hnb
  obtain ⟨xa, hxa, rfl⟩ := List.mem_map.mp ha
  have hbmem : (priorityOf b, b)
      ∈ (emails.map (fun e => (priorityOf e, e))).insertionSort prioLE :=
    (List.perm_insertionSort prioLE _).mem_iff.mpr
      (List.mem_map_of_mem (fun e => (priorityOf e, e)) hb)
  have hbsplit : (priorityOf b, b)
      ∈ ((emails.map (fun e => (priorityOf e, e))).insertionSort prioLE).take k
        ++ ((emails.map (fun e => (priorityOf e, e))).insertionSort prioLE).drop k := by
    rw [List.take_append_drop]
    exact hbmem
  rcases List.mem_append.mp hbsplit with hin | hout
  · exact absurd (List.mem_map_of_mem (fun p => p.2) hin) hnb
  · have hpw : ((emails.map (fun e => (priorityOf e, e))).insertionSort prioLE).Pairwise prioLE :=
      List.sorted_insertionSort prioLE _
    have hpw2 : (((emails.map (fun e => (priorityOf e, e))).insertionSort prioLE).take k
        ++ ((emails.map (fun e => (priorityOf e, e))).insertionSort prioLE).drop k).Pairwise prioLE := by
      rw [List.take_append_drop]
      exact hpw
    have hrel : prioLE xa (priorityOf b, b) :=
      (List.pairwise_append.mp hpw2).2.2 xa hxa (priorityOf b, b) hout
    have hxa' := mem_scored_fst (List.take_subset k _ hxa)
    rw [← hxa'.1]
    exact hrel

/-- C4: `pickBestEmails` returns the first `maxPerDomain` elements of the
stable priority ordering (info > contact > sales > booking/bookings >
reservations > office > hello > enquiry/enquiries > support, exact match
before prefix match, unlisted generic before personal, ties in encounter
order): the three-candidate example orders as `info@x, sales@x, random@x`;
the output length is `min maxPerDomain emails.length` (so 8 valid candidates
with `maxPerDomain = 5` yield exactly 5); the output is sorted by priority;
every omitted candidate has priority no better than any returned one; and the
8-candidate example returns exactly the 5 highest-priority ones. -/
theorem C4_pickBestEmails_ranking :
    (pickBestEmails
        [⟨"sales@x", "u", "generic", mkRat 9 10, "regex"⟩,
         ⟨"info@x", "u", "generic", mkRat 9 10, "regex"⟩,
         ⟨"random@x", "u", "personal", mkRat 9 10, "regex"⟩] 5
      = [⟨"info@x", "u", "generic", mkRat 9 10, "regex"⟩,
         ⟨"sales@x", "u", "generic", mkRat 9 10, "regex"⟩,
         ⟨"random@x", "u", "personal", mkRat 9 10, "regex"⟩])
    ∧ (∀ (emails : List EmailCandidate) (k : Nat),
        (pickBestEmails emails k).length = min k emails.length)
    ∧ (∀ (emails : List EmailCandidate) (k : Nat),
        (pickBestEmails emails k).Pairwise (fun a b => priorityOf a ≤ priorityOf b))
    ∧ (∀ (emails : List EmailCandidate) (k : Nat) (b : EmailCandidate),
        b ∈ emails → b ∉ pickBestEmails emails k →
        ∀ a ∈ pickBestEmails emails k, priorityOf a ≤ priorityOf b)
    ∧ (pickBestEmails
        [⟨"random@x", "u", "personal", mkRat 9 10, "regex"⟩,
         ⟨"office@x", "u", "generic", mkRat 9 10, "regex"⟩,
         ⟨"info@x", "u", "generic", mkRat 9 10, "regex"⟩,
         ⟨"hello@x", "u", "generic", mkRat 9 10, "regex"⟩,
         ⟨"contact@x", "u", "generic", mkRat 9 10, "regex"⟩,
         ⟨"support@x", "u", "generic", mkRat 9 10, "regex"⟩,
         ⟨"sales@x", "u", "generic", mkRat 9 10, "regex"⟩,
         ⟨"booking@x", "u", "generic", mkRat 9 10, "regex"⟩] 5
      = [⟨"info@x", "u", "generic", mkRat 9 10, "regex"⟩,
         ⟨"contact@x", "u", "generic", mkRat 9 10, "regex"⟩,
         ⟨"sales@x", "u", "generic", mkRat 9 10, "regex"⟩,
         ⟨"booking@x", "u", "generic", mkRat 9 10, "regex"⟩,
         ⟨"office@x", "u", "generic", mkRat 9 10, "regex"⟩]) :=
  ⟨by decide, pickBest_length, pickBest_sorted, pickBest_omitted, by decide⟩

/-- Witness for C4's omitted-candidate bound at the 8-candidate example:
`random@x` is dropped and every returned candidate has a better priority. -/
theorem C4_pickBestEmails_ranking_witness :
    priorityOf ⟨"info@x", "u", "generic", mkRat 9 10, "regex"⟩
      ≤ priorityOf ⟨"random@x", "u", "personal", mkRat 9 10, "regex"⟩ :=
  C4_pickBestEmails_ranking.2.2.2.1
    [⟨"random@x", "u", "personal", mkRat 9 10, "regex"⟩,
     ⟨"office@x", "u", "generic", mkRat 9 10, "regex"⟩,
     ⟨"info@x", "u", "generic", mkRat 9 10, "regex"⟩,
     ⟨"hello@x", "u", "generic", mkRat 9 10, "regex"⟩,
     ⟨"contact@x", "u", "generic", mkRat 9 10, "regex"⟩,
     ⟨"support@x", "u", "generic", mkRat 9 10, "regex"⟩,
     ⟨"sales@x", "u", "generic", mkRat 9 10, "regex"⟩,
     ⟨"booking@x", "u", "generic", mkRat 9 10, "regex"⟩] 5
    ⟨"random@x", "u", "personal", mkRat 9 10, "regex"⟩
    (by decide) (by decide)
    ⟨"info@x", "u", "generic", mkRat 9 10, "regex"⟩ (by decide)

/-! ### Theorems: merge by email (C3, C10) -/

theorem getVal_cons (a : String) (b : EmailCandidate)
    (l : List (String × EmailCandidate)) (k : String) :
    getVal ((a, b) :: l) k = if a = k then some b else getVal l k := rfl

theorem getVal_append (m1 m2 : List (String × EmailCandidate)) (k : String) :
    getVal (m1 ++ m2) k
      = match getVal m1 k with
        | some v => some v
        | none => getVal m2 k := by
  induction m1 with
  | nil => rfl
  | cons p t ih =>
    obtain ⟨k', v⟩ := p
    by_cases h : k' = k
    · simp [getVal_cons, h]
    · simp only [List.cons_append, getVal_cons, if_neg h]
      exact ih

theorem getVal_map_overwrite (k : String) (v : EmailCandidate) :
    ∀ (m : List (String × EmailCandidate)) (k' : String), k' ≠ k →
      getVal (m.map (fun p => if p.1 = k then (k, v) else p)) k' = getVal m k'
  | [], _, _ => rfl
  | (a, b) :: t, k', hk => by
    have ih := getVal_map_overwrite k v t k' hk
    by_cases ha : a = k
    · subst ha
      have hka : a ≠ k' := fun hh => hk hh.symm
      simp only [List.map_cons, if_true]
      rw [getVal_cons, getVal_cons, if_neg hka, if_neg hka]
      exact ih
    · simp only [List.map_cons, if_neg ha]
      rw [getVal_cons, getVal_cons]
      by_cases hak : a = k'
      · rw [if_pos hak, if_pos hak]
      · rw [if_neg hak, if_neg hak]
        exact ih

theorem getVal_map_self (k : String) (v : EmailCandidate) :
    ∀ m : List (String × EmailCandidate), (getVal m k).isSome = true →
      getVal (m.map (fun p => if p.1 = k then (k, v) else p)) k = some v
  | [], h => by simp [getVal] at h
  | (a, b) :: t, h => by
    by_cases ha : a = k
    · subst ha
      simp only [List.map_cons, if_true]
      rw [getVal_cons, if_pos rfl]
    · simp only [List.map_cons, if_neg ha]
      rw [getVal_cons, if_neg ha]
      refine getVal_map_self k v t ?_
      rw [getVal_cons, if_neg ha] at h
      exact h

theorem getVal_setVal (m : List (String × EmailCandidate)) (k : String)
    (v : EmailCandidate) (k' : String) :
    getVal (setVal m k v) k' = if k' = k then some v else getVal m k' := by
  unfold setVal
  by_cases hp : (getVal m k).isSome
  · rw [if_pos hp]
    by_cases hk : k' = k
    · subst hk
      rw [if_pos rfl]
      exact getVal_map_self k' v m hp
    · rw [if_neg hk]
      exact getVal_map_overwrite k v m k' hk
  · rw [if_neg hp, getVal_append]
    by_cases hk : k' = k
    · subst hk
      rw [if_pos rfl]
      cases hg : getVal m k' with
      | none => simp [getVal_cons]
      | some w => exact absurd (by simp [hg]) hp
    · rw [if_neg hk]
      have hka : k ≠ k' := fun hh => hk hh.symm
      cases hg : getVal m k' with
      | none =>
        simp only [hg, getVal_cons]
        rw [if_neg hka]
        rfl
      | some w => simp [hg]

theorem getVal_build_preserve (e : String) :
    ∀ (rs : List EmailCandidate), (∀ x ∈ rs, x.email ≠ e) →
      ∀ m, getVal (buildRegexMap m rs) e = getVal m e
  | [], _, _ => rfl
  | r :: t, h, m => by
    have hr : r.email ≠ e := h r (List.mem_cons_self _ _)
    rw [buildRegexMap, getVal_build_preserve e t
      (fun x hx => h x (List.mem_cons_of_mem _ hx)), getVal_setVal,
      if_neg (fun hh => hr hh.symm)]

theorem getVal_build_unique :
    ∀ (rs : List EmailCandidate), (rs.map (fun r => r.email)).Nodup →
      ∀ r, r ∈ rs → ∀ m, getVal (buildRegexMap m rs) r.email = some r
  | [], _, r, hr, _ => absurd hr (List.not_mem_nil r)
  | r0 :: t, hnd, r, hr, m => by
    rcases List.mem_cons.mp hr with heq | hmem
    · subst heq
      have hpair : (∀ x ∈ t, ¬ x.email = r.email)
          ∧ (t.map (fun y => y.email)).Nodup := by simpa using hnd
      rw [buildRegexMap, getVal_build_preserve r.email t hpair.1, getVal_setVal, if_pos rfl]
    · have hpair : (∀ x ∈ t, ¬ x.email = r0.email)
          ∧ (t.map (fun y => y.email)).Nodup := by simpa using hnd
      rw [buildRegexMap]
      exact getVal_build_unique t hpair.2 r hmem _

theorem getVal_build_none (e : String) (rs : List EmailCandidate)
    (h : ∀ x ∈ rs, x.email ≠ e) : getVal (buildRegexMap [] rs) e = none := by
  rw [getVal_build_preserve e rs h]
  rfl

theorem getVal_foldAi_preserve (e : String) :
    ∀ (as : List EmailCandidate), (∀ a ∈ as, a.email ≠ e) →
      ∀ m, getVal (foldAi m as) e = getVal m e
  | [], _, _ => rfl
  | a :: t, h, m => by
    have ha : a.email ≠ e := h a (List.mem_cons_self _ _)
    have ht := fun m' => getVal_foldAi_preserve e t
      (fun x hx => h x (List.mem_cons_of_mem _ hx)) m'
    rw [foldAi]
    by_cases hv : (!(isValidEmail a.email) || isJunkLocalPart a.email) = true
    · rw [if_pos hv]
      exact ht m
    · rw [if_neg hv]
      cases hg : getVal m a.email with
      | some existing =>
        rw [ht _, getVal_setVal, if_neg (fun hh => ha hh.symm)]
      | none =>
        rw [ht _, getVal_append]
        cases hge : getVal m e with
        | some w => simp
        | none =>
          simp only [getVal_cons]
          rw [if_neg ha]
          rfl

theorem getVal_foldAi_unique :
    ∀ (as : List EmailCandidate), (as.map (fun a => a.email)).Nodup →
      ∀ a, a ∈ as →
      (!(isValidEmail a.email) || isJunkLocalPart a.email) = false →
      ∀ m, getVal (foldAi m as) a.email
        = match getVal m a.email with
          | some existing => some (mergeRec existing a)
          | none => some a
  | [], _, a, ha, _, _ => absurd ha (List.not_mem_nil a)
  | a0 :: t, hnd, a, ha, hok, m => by
    rcases List.mem_cons.mp ha with heq | hmem
    · subst heq
      have hpair : (∀ x ∈ t, ¬ x.email = a.email)
          ∧ (t.map (fun y => y.email)).Nodup := by simpa using hnd
      have hnot : ∀ x ∈ t, x.email ≠ a.email := hpair.1
      rw [foldAi, if_neg (by rw [hok]; exact Bool.false_ne_true)]
      cases hg : getVal m a.email with
      | some existing =>
        rw [getVal_foldAi_preserve a.email t hnot, getVal_setVal, if_pos rfl]
      | none =>
        rw [getVal_foldAi_preserve a.email t hnot, getVal_append, hg, getVal_cons,
          if_pos rfl]
    · have hpair : (∀ x ∈ t, ¬ x.email = a0.email)
          ∧ (t.map (fun y => y.email)).Nodup := by simpa using hnd
      have hne : a0.email ≠ a.email := fun hx2 => hpair.1 a hmem hx2.symm
      have ih := getVal_foldAi_unique t hpair.2 a hmem hok
      rw [foldAi]
      by_cases hv : (!(isValidEmail a0.email) || isJunkLocalPart a0.email) = true
      · rw [if_pos hv]
        exact ih m
      · rw [if_neg hv]
        cases hg : getVal m a0.email with
        | some existing =>
          rw [ih _, getVal_setVal, if_neg (fun hh => hne hh.symm)]
        | none =>
          rw [ih _, getVal_append, getVal_cons]
          cases hge : getVal m a.email with
          | some w => simp
          | none =>
            rw [if_neg hne]
            rfl

theorem getVal_isSome_iff (k : String) :
    ∀ m : List (String × EmailCandidate),
      (getVal m k).isSome = true ↔ k ∈ m.map (fun p => p.1)
  | [] => by simp [getVal]
  | (a, b) :: t => by
    rw [getVal_cons]
    by_cases ha : a = k
    · simp [ha]
    · simp only [if_neg ha, List.map_cons, List.mem_cons]
      rw [getVal_isSome_iff k t]
      constructor
      · exact Or.inr
      · rintro (h | h)
        · exact absurd h.symm ha
        · exact h

theorem mem_setVal (m : List (String × EmailCandidate)) (k : String)
    (v : EmailCandidate) (p : String × EmailCandidate) (hp : p ∈ setVal m k v) :
    p ∈ m ∨ p = (k, v) := by
  unfold setVal at hp
  by_cases hs : (getVal m k).isSome
  · rw [if_pos hs] at hp
    obtain ⟨q, hq, hqe⟩ := List.mem_map.mp hp
    by_cases hqk : q.1 = k
    · rw [if_pos hqk] at hqe
      exact Or.inr hqe.symm
    · rw [if_neg hqk] at hqe
      exact Or.inl (hqe ▸ hq)
  · rw [if_neg hs] at hp
    rcases List.mem_append.mp hp with h | h
    · exact Or.inl h
    · exact Or.inr (List.mem_singleton.mp h)

theorem setVal_wf (m : List (String × EmailCandidate)) (k : String)
    (v : EmailCandidate) (hwf : MapWf m) (hv : v.email = k) :
    MapWf (setVal m k v) := by
  obtain ⟨hnd, hco⟩ := hwf
  unfold setVal
  by_cases hs : (getVal m k).isSome
  · rw [if_pos hs]
    constructor
    · have hkeys : (m.map (fun p => if p.1 = k then (k, v) else p)).map (fun p => p.1)
          = m.map (fun p => p.1) := by
        rw [List.map_map]
        refine List.map_congr_left ?_
        intro p _
        by_cases hpk : p.1 = k
        · simp [hpk]
        · simp [hpk]
      rw [hkeys]
      exact hnd
    · intro p hp
      obtain ⟨q, hq, hqe⟩ := List.mem_map.mp hp
      by_cases hqk : q.1 = k
      · rw [if_pos hqk] at hqe
        rw [← hqe]
        exact hv
      · rw [if_neg hqk] at hqe
        exact hqe ▸ hco q hq
  · rw [if_neg hs]
    constructor
    · have hknot : k ∉ m.map (fun p => p.1) := by
        intro hmem
        exact hs ((getVal_isSome_iff k m).mpr hmem)
      simp only [List.map_append, List.map_cons, List.map_nil]
      rw [List.nodup_append]
      refine ⟨hnd, List.nodup_singleton k, ?_⟩
      intro x hx hxk
      rw [List.mem_singleton] at hxk
      subst hxk
      exact hknot hx
    · intro p hp
      rcases List.mem_append.mp hp with h | h
      · exact hco p h
      · rw [List.mem_singleton.mp h]
        exact hv

theorem build_wf : ∀ (rs : List EmailCandidate) (m : List (String × EmailCandidate)),
    MapWf m → MapWf (buildRegexMap m rs)
  | [], _, h => h
  | r :: t, m, h => build_wf t _ (setVal_wf m r.email r h rfl)

theorem build_mem : ∀ (rs : List EmailCandidate) (m : List (String × EmailCandidate))
    (p : String × EmailCandidate), p ∈ buildRegexMap m rs → p ∈ m ∨ p.2 ∈ rs
  | [], _, _, hp => Or.inl hp
  | r :: t, m, p, hp => by
    rcases build_mem t _ p hp with h | h
    · rcases mem_setVal m r.email r p h with h2 | h2
      · exact Or.inl h2
      · exact Or.inr (by rw [h2]; exact List.mem_cons_self _ _)
    · exact Or.inr (List.mem_cons_of_mem _ h)

theorem getVal_mem (k : String) :
    ∀ (m : List (String × EmailCandidate)) (v : EmailCandidate),
      getVal m k = some v → (k, v) ∈ m
  | [], v, h => by simp [getVal] at h
  | (a, b) :: t, v, h => by
    rw [getVal_cons] at h
    by_cases ha : a = k
    · rw [if_pos ha] at h
      subst ha
      exact Option.some_inj.mp h ▸ List.mem_cons_self _ _
    · rw [if_neg ha] at h
      exact List.mem_cons_of_mem _ (getVal_mem k t v h)

theorem foldAi_wf : ∀ (as : List EmailCandidate) (m : List (String × EmailCandidate)),
    MapWf m → MapWf (foldAi m as)
  | [], _, h => h
  | a :: t, m, h => by
    rw [foldAi]
    by_cases hv : (!(isValidEmail a.email) || isJunkLocalPart a.email) = true
    · rw [if_pos hv]
      exact foldAi_wf t m h
    · rw [if_neg hv]
      cases hg : getVal m a.email with
      | some existing =>
        refine foldAi_wf t _ (setVal_wf m a.email (mergeRec existing a) h ?_)
        have := h.2 (a.email, existing) (getVal_mem a.email m existing hg)
        simpa [mergeRec] using this
      | none =>
        refine foldAi_wf t _ ?_
        constructor
        · have hknot : a.email ∉ m.map (fun p => p.1) := by
            intro hmem
            have := (getVal_isSome_iff a.email m).mpr hmem
            rw [hg] at this
            simp at this
          simp only [List.map_append, List.map_cons, List.map_nil]
          rw [List.nodup_append]
          refine ⟨h.1, List.nodup_singleton _, ?_⟩
          intro x hx hxk
          rw [List.mem_singleton] at hxk
          subst hxk
          exact hknot hx
        · intro p hp
          rcases List.mem_append.mp hp with hmem | hmem
          · exact h.2 p hmem
          · rw [List.mem_singleton.mp hmem]

theorem values_filter (e : String) :
    ∀ m : List (String × EmailCandidate), MapWf m →
      (m.map (fun p => p.2)).filter (fun c => c.email == e)
        = match getVal m e with
          | some v => [v]
          | none => []
  | [], _ => rfl
  | (a, b) :: t, hwf => by
    have hbe : b.email = a := hwf.2 (a, b) (List.mem_cons_self _ _)
    have hwft : MapWf t := by
      refine ⟨(List.nodup_cons.mp (by simpa using hwf.1)).2,
        fun p hp => hwf.2 p (List.mem_cons_of_mem _ hp)⟩
    have hanot : a ∉ t.map (fun p => p.1) := (List.nodup_cons.mp (by simpa using hwf.1)).1
    rw [List.map_cons, List.filter_cons, getVal_cons]
    by_cases ha : a = e
    · subst ha
      have hgt : getVal t a = none := by
        cases hgt : getVal t a with
        | none => rfl
        | some w =>
          have := (getVal_isSome_iff a t).mp (by simp [hgt])
          exact absurd this hanot
      rw [if_pos rfl]
      have hfil := values_filter a t hwft
      rw [hgt] at hfil
      simp only [hbe, beq_self_eq_true, if_true]
      rw [hfil]
    · rw [if_neg ha]
      have hbne : (b.email == e) = false := by
        rw [hbe]
        exact beq_eq_false_iff_ne.mpr ha
      rw [hbne]
      exact values_filter e t hwft

theorem merged_filter_both (R A : List EmailCandidate)
    (hR : (R.map (fun r => r.email)).Nodup) (hA : (A.map (fun a => a.email)).Nodup)
    (r a : EmailCandidate) (hrR : r ∈ R) (haA : a ∈ A) (hre : r.email = a.email)
    (hvalid : isValidEmail a.email = true) (hjunk : isJunkLocalPart a.email = false) :
    (mergeEmailResults A R).filter (fun c => c.email == a.email)
      = [mergeRec r a] := by
  have hwf0 : MapWf (buildRegexMap [] R) :=
    build_wf R [] ⟨List.nodup_nil, by simp⟩
  have hwfM : MapWf (foldAi (buildRegexMap [] R) A) := foldAi_wf A _ hwf0
  have hok : (!(isValidEmail a.email) || isJunkLocalPart a.email) = false := by
    rw [hvalid, hjunk]
    rfl
  have hg0 : getVal (buildRegexMap [] R) a.email = some r := by
    have h := getVal_build_unique R hR r hrR []
    rw [hre] at h
    exact h
  have hgM : getVal (foldAi (buildRegexMap [] R) A) a.email = some (mergeRec r a) := by
    have h := getVal_foldAi_unique A hA a haA hok (buildRegexMap [] R)
    rw [hg0] at h
    exact h
  unfold mergeEmailResults
  rw [values_filter a.email _ hwfM, hgM]

/-- C3: in the email merge, an email present in both the regex list and the
(validated) AI list yields exactly one merged candidate with
`extracted_by = 'both'` and confidence the maximum of the two; an email only
in the AI list that passes validation is inserted as-is; an email only in the
regex list is kept unchanged. -/
theorem C3_merge_by_email (R A : List EmailCandidate) (e : String)
    (hR : (R.map (fun r => r.email)).Nodup)
    (hA : (A.map (fun a => a.email)).Nodup) :
    (∀ r a, r ∈ R → r.email = e → a ∈ A → a.email = e →
      isValidEmail e = true → isJunkLocalPart e = false →
      ((mergeEmailResults A R).filter (fun c => c.email == e)).map
          (fun c => (c.extracted_by, c.confidence))
        = [("both", max r.confidence a.confidence)])
    ∧ (∀ a, a ∈ A → a.email = e → (∀ r ∈ R, r.email ≠ e) →
      isValidEmail e = true → isJunkLocalPart e = false →
      (mergeEmailResults A R).filter (fun c => c.email == e) = [a])
    ∧ (∀ r, r ∈ R → r.email = e → (∀ a ∈ A, a.email ≠ e) →
      (mergeEmailResults A R).filter (fun c => c.email == e) = [r]) := by
  refine ⟨?_, ?_, ?_⟩
  · intro r a hrR hre haA hae hvalid hjunk
    subst hae
    rw [merged_filter_both R A hR hA r a hrR haA hre hvalid hjunk]
    simp [mergeRec]
  · intro a haA hae hnotR hvalid hjunk
    subst hae
    have hwf0 : MapWf (buildRegexMap [] R) :=
      build_wf R [] ⟨List.nodup_nil, by simp⟩
    have hwfM : MapWf (foldAi (buildRegexMap [] R) A) := foldAi_wf A _ hwf0
    have hok : (!(isValidEmail a.email) || isJunkLocalPart a.email) = false := by
      rw [hvalid, hjunk]
      rfl
    have hg0 : getVal (buildRegexMap [] R) a.email = none :=
      getVal_build_none a.email R hnotR
    have hgM : getVal (foldAi (buildRegexMap [] R) A) a.email = some a := by
      have h := getVal_foldAi_unique A hA a haA hok (buildRegexMap [] R)
      rw [hg0] at h
      exact h
    unfold mergeEmailResults
    rw [values_filter a.email _ hwfM, hgM]
  · intro r hrR hre hnotA
    subst hre
    have hwf0 : MapWf (buildRegexMap [] R) :=
      build_wf R [] ⟨List.nodup_nil, by simp⟩
    have hwfM : MapWf (foldAi (buildRegexMap [] R) A) := foldAi_wf A _ hwf0
    have hg0 : getVal (buildRegexMap [] R) r.email = some r :=
      getVal_build_unique R hR r hrR []
    have hgM : getVal (foldAi (buildRegexMap [] R) A) r.email = some r := by
      rw [getVal_foldAi_preserve r.email A hnotA, hg0]
    unfold mergeEmailResults
    rw [values_filter r.email _ hwfM, hgM]

/-- Witness for C3: a regex candidate at confidence 0.9 and an AI candidate
for the same address at confidence 0.95 merge to `both` with 0.95; an
AI-only valid address is inserted as-is; a regex-only address is kept. -/
theorem C3_merge_by_email_witness :
    ((mergeEmailResults
          [⟨"info@x.com", "u2", "generic", mkRat 19 20, "ai"⟩]
          [⟨"info@x.com", "u", "generic", mkRat 9 10, "regex"⟩]).filter
        (fun c => c.email == "info@x.com")).map
        (fun c => (c.extracted_by, c.confidence))
      = [("both", mkRat 19 20)]
    ∧ (mergeEmailResults
          [⟨"sales@y.com", "u2", "generic", mkRat 19 20, "ai"⟩]
          [⟨"info@x.com", "u", "generic", mkRat 9 10, "regex"⟩]).filter
        (fun c => c.email == "sales@y.com")
      = [⟨"sales@y.com", "u2", "generic", mkRat 19 20, "ai"⟩]
    ∧ (mergeEmailResults
          [⟨"sales@y.com", "u2", "generic", mkRat 19 20, "ai"⟩]
          [⟨"info@x.com", "u", "generic", mkRat 9 10, "regex"⟩]).filter
        (fun c => c.email == "info@x.com")
      = [⟨"info@x.com", "u", "generic", mkRat 9 10, "regex"⟩] := by
  refine ⟨?_, ?_, ?_⟩
  · have h := (C3_merge_by_email
        [⟨"info@x.com", "u", "generic", mkRat 9 10, "regex"⟩]
        [⟨"info@x.com", "u2", "generic", mkRat 19 20, "ai"⟩]
        "info@x.com" (by decide) (by decide)).1
        ⟨"info@x.com", "u", "generic", mkRat 9 10, "regex"⟩
        ⟨"info@x.com", "u2", "generic", mkRat 19 20, "ai"⟩
        (by decide) rfl (by decide) rfl (by decide) (by decide)
    rw [h]
    decide
  · exact (C3_merge_by_email
        [⟨"info@x.com", "u", "generic", mkRat 9 10, "regex"⟩]
        [⟨"sales@y.com", "u2", "generic", mkRat 19 20, "ai"⟩]
        "sales@y.com" (by decide) (by decide)).2.1
        ⟨"sales@y.com", "u2", "generic", mkRat 19 20, "ai"⟩
        (by decide) rfl (by decide) (by decide) (by decide)
  · exact (C3_merge_by_email
        [⟨"info@x.com", "u", "generic", mkRat 9 10, "regex"⟩]
        [⟨"sales@y.com", "u2", "generic", mkRat 19 20, "ai"⟩]
        "info@x.com" (by decide) (by decide)).2.2
        ⟨"info@x.com", "u", "generic", mkRat 9 10, "regex"⟩
        (by decide) rfl (by decide)

/-- C10: on a merge collision the AI-reported `email_type` overrides the
regex-derived classification whenever it is not `'unknown'`; the regex
classification is kept only when the AI type is `'unknown'`. -/
theorem C10_merge_type_override (R A : List EmailCandidate) (e : String)
    (hR : (R.map (fun r => r.email)).Nodup)
    (hA : (A.map (fun a => a.email)).Nodup)
    (r a : EmailCandidate) (hrR : r ∈ R) (hre : r.email = e) (haA : a ∈ A)
    (hae : a.email = e) (hvalid : isValidEmail e = true)
    (hjunk : isJunkLocalPart e = false) :
    ((mergeEmailResults A R).filter (fun c => c.email == e)).map
        (fun c => c.email_type)
      = [if a.email_type ≠ "unknown" then a.email_type else r.email_type] := by
  subst hae
  rw [merged_filter_both R A hR hA r a hrR haA hre hvalid hjunk]
  simp [mergeRec]

/-- Witness for C10: an AI type of `personal` overrides the regex `generic`;
an AI type of `unknown` keeps the regex classification. -/
theorem C10_merge_type_override_witness :
    ((mergeEmailResults
          [⟨"info@x.com", "u2", "personal", mkRat 19 20, "ai"⟩]
          [⟨"info@x.com", "u", "generic", mkRat 9 10, "regex"⟩]).filter
        (fun c => c.email == "info@x.com")).map (fun c => c.email_type)
      = ["personal"]
    ∧ ((mergeEmailResults
          [⟨"info@x.com", "u2", "unknown", mkRat 19 20, "ai"⟩]
          [⟨"info@x.com", "u", "generic", mkRat 9 10, "regex"⟩]).filter
        (fun c => c.email == "info@x.com")).map (fun c => c.email_type)
      = ["generic"] := by
  constructor
  · have h := C10_merge_type_override
        [⟨"info@x.com", "u", "generic", mkRat 9 10, "regex"⟩]
        [⟨"info@x.com", "u2", "personal", mkRat 19 20, "ai"⟩]
        "info@x.com" (by decide) (by decide)
        ⟨"info@x.com", "u", "generic", mkRat 9 10, "regex"⟩
        ⟨"info@x.com", "u2", "personal", mkRat 19 20, "ai"⟩
        (by decide) rfl (by decide) rfl (by decide) (by decide)
    rw [h]
    decide
  · have h := C10_merge_type_override
        [⟨"info@x.com", "u", "generic", mkRat 9 10, "regex"⟩]
        [⟨"info@x.com", "u2", "unknown", mkRat 19 20, "ai"⟩]
        "info@x.com" (by decide) (by decide)
        ⟨"info@x.com", "u", "generic", mkRat 9 10, "regex"⟩
        ⟨"info@x.com", "u2", "unknown", mkRat 19 20, "ai"⟩
        (by decide) rfl (by decide) rfl (by decide) (by decide)
    rw [h]
    decide

/-! ### Theorems: every emitted candidate is normalized and validated (C6) -/

theorem candOk_mergeRec (ex a : EmailCandidate) (h : CandOk ex) :
    CandOk (mergeRec ex a) := h

theorem pushCandidates_inv (url : String) :
    ∀ (cands : List String) (seen : List String) (c : EmailCandidate),
      c ∈ pushCandidates url seen cands → CandOk c
  | raw :: rest, seen, c, hc => by
    simp only [pushCandidates] at hc
    by_cases h1 : ((normalizeEmail raw).isEmpty
        || !((normalizeEmail raw).data.contains '@')
        || seen.contains (normalizeEmail raw)) = true
    · rw [if_pos h1] at hc
      exact pushCandidates_inv url rest seen c hc
    · rw [if_neg h1] at hc
      by_cases h2 : (!(isValidEmail (normalizeEmail raw))) = true
      · rw [if_pos h2] at hc
        exact pushCandidates_inv url rest seen c hc
      · rw [if_neg h2] at hc
        by_cases h3 : isJunkLocalPart (normalizeEmail raw) = true
        · rw [if_pos h3] at hc
          exact pushCandidates_inv url rest seen c hc
        · rw [if_neg h3] at hc
          rcases List.mem_cons.mp hc with heq | hmem
          · subst heq
            refine ⟨(normalizeEmail_idem raw).symm, ?_, ?_⟩
            · simpa using h2
            · simpa using h3
          · exact pushCandidates_inv url rest _ c hmem

theorem llmSanitize_inv (url : String) :
    ∀ (raws : List RawAiEmail) (c : EmailCandidate),
      c ∈ llmSanitize url raws → c.email = normalizeEmail c.email
  | e :: rest, c, hc => by
    simp only [llmSanitize] at hc
    by_cases h1 : ((normalizeEmail e.email).isEmpty
        || !((normalizeEmail e.email).data.contains '@')) = true
    · rw [if_pos h1] at hc
      exact llmSanitize_inv url rest c hc
    · rw [if_neg h1] at hc
      rcases List.mem_cons.mp hc with heq | hmem
      · subst heq
        exact (normalizeEmail_idem e.email).symm
      · exact llmSanitize_inv url rest c hmem

theorem foldAi_values :
    ∀ (as : List EmailCandidate) (m : List (String × EmailCandidate)),
      (∀ p ∈ m, CandOk p.2) →
      (∀ a ∈ as, a.email = normalizeEmail a.email) →
      ∀ p ∈ foldAi m as, CandOk p.2
  | [], _, hm, _, p, hp => hm p hp
  | a :: t, m, hm, hn, p, hp => by
    rw [foldAi] at hp
    by_cases hv : (!(isValidEmail a.email) || isJunkLocalPart a.email) = true
    · rw [if_pos hv] at hp
      exact foldAi_values t m hm (fun x hx => hn x (List.mem_cons_of_mem _ hx)) p hp
    · rw [if_neg hv] at hp
      have hva : isValidEmail a.email = true ∧ isJunkLocalPart a.email = false := by
        constructor
        · by_cases hb : isValidEmail a.email = true
          · exact hb
          · exact absurd (by simp [Bool.eq_false_iff.mpr hb]) hv
        · by_cases hb : isJunkLocalPart a.email = true
          · exact absurd (by simp [hb]) hv
          · exact Bool.eq_false_iff.mpr hb
      cases hg : getVal m a.email with
      | some existing =>
        rw [hg] at hp
        refine foldAi_values t _ ?_ (fun x hx => hn x (List.mem_cons_of_mem _ hx)) p hp
        intro q hq
        rcases mem_setVal _ _ _ q hq with hqm | hqe
        · exact hm q hqm
        · rw [hqe]
          exact candOk_mergeRec existing a (hm (a.email, existing) (getVal_mem _ m existing hg))
      | none =>
        rw [hg] at hp
        refine foldAi_values t _ ?_ (fun x hx => hn x (List.mem_cons_of_mem _ hx)) p hp
        intro q hq
        rcases List.mem_append.mp hq with hqm | hqe
        · exact hm q hqm
        · rw [List.mem_singleton.mp hqe]
          exact ⟨hn a (List.mem_cons_self _ _), hva.1, hva.2⟩

theorem pickBest_subset (emails : List EmailCandidate) (k : Nat) :
    ∀ c ∈ pickBestEmails emails k, c ∈ emails := by
  intro c hc
  simp only [pickBestEmails] at hc
  obtain ⟨x, hx, rfl⟩ := List.mem_map.mp hc
  exact (mem_scored_fst (List.take_subset k _ hx)).2

theorem mergeEmailResults_inv (A R : List EmailCandidate)
    (hR : ∀ x ∈ R, CandOk x)
    (hA : ∀ a ∈ A, a.email = normalizeEmail a.email) :
    ∀ c ∈ mergeEmailResults A R, CandOk c := by
  intro c hc
  unfold mergeEmailResults at hc
  obtain ⟨p, hp, rfl⟩ := List.mem_map.mp hc
  refine foldAi_values A (buildRegexMap [] R) ?_ hA p hp
  intro q hq
  rcases build_mem R [] q hq with hq0 | hq2
  · exact absurd hq0 (List.not_mem_nil q)
  · exact hR q.2 hq2

/-- C6: every candidate returned by `extractEmailsFromPages` has an email
that is normalized (a fixpoint of lowercase-and-trim) and has passed both the
validation check and the junk-prefix filter — whether it came from the regex
scan or from the untrusted LLM source, and for any LLM output whatsoever. -/
theorem C6_output_validated (pages : List PageData) (enableAi : Bool)
    (maxEmails : Nat) (c : EmailCandidate)
    (hc : c ∈ extractEmailsFromPages pages enableAi maxEmails) :
    c.email = normalizeEmail c.email ∧ isValidEmail c.email = true ∧
      isJunkLocalPart c.email = false := by
  unfold extractEmailsFromPages at hc
  have hmerge := pickBest_subset _ _ c hc
  refine mergeEmailResults_inv _ _ ?_ ?_ c hmerge
  · intro x hx
    obtain ⟨l, hl, hxl⟩ := List.mem_flatten.mp hx
    obtain ⟨pg, _, rfl⟩ := List.mem_map.mp hl
    exact pushCandidates_inv pg.url pg.emailCandidates [] x hxl
  · intro a ha
    obtain ⟨l, hl, hal⟩ := List.mem_flatten.mp ha
    obtain ⟨pg, _, rfl⟩ := List.mem_map.mp hl
    by_cases hcond : (enableAi && pg.htmlNonempty && pg.visibleTextNonempty) = true
    · rw [if_pos hcond] at hal
      exact llmSanitize_inv pg.url pg.aiRaw a hal
    · rw [if_neg hcond] at hal
      exact absurd hal (List.not_mem_nil a)

/-- Witness for C6: a page whose LLM output contains an unnormalized address,
a junk-prefixed address and a malformed address; the candidate that survives
from the LLM source is normalized, valid and junk-free. -/
theorem C6_output_validated_witness :
    (⟨"sales@site.com", "https://x.com", "generic", mkRat 19 20, "ai"⟩ : EmailCandidate)
      ∈ extractEmailsFromPages
        [⟨"https://x.com", true, ["Info@Site.com"], true,
          [⟨" SALES@site.com ", "generic", some (mkRat 19 20)⟩,
           ⟨"privacy@site.com", "generic", some 1⟩,
           ⟨"bad@@", "", none⟩]⟩] true 5
    ∧ ((⟨"sales@site.com", "https://x.com", "generic", mkRat 19 20, "ai"⟩ : EmailCandidate).email
        = normalizeEmail "sales@site.com"
      ∧ isValidEmail "sales@site.com" = true
      ∧ isJunkLocalPart "sales@site.com" = false) :=
  ⟨by decide,
   C6_output_validated
    [⟨"https://x.com", true, ["Info@Site.com"], true,
      [⟨" SALES@site.com ", "generic", some (mkRat 19 20)⟩,
       ⟨"privacy@site.com", "generic", some 1⟩,
       ⟨"bad@@", "", none⟩]⟩] true 5
    ⟨"sales@site.com", "https://x.com", "generic", mkRat 19 20, "ai"⟩
    (by decide)⟩
